import Mathlib

/-
Verification of the tile-based sphere path tracer.

The C++ sources are embedded shallowly over the real numbers: `float` and
`double` become `ℝ`, componentwise vector arithmetic becomes a `Vec3`
structure, the in/out `HitRecord&` parameters become explicit
state passing (each `Hit` returns the flag together with the record it
leaves behind), and the thread-shared control flags and random generators
become explicit oracle streams passed to the worker functions.
-/

noncomputable section

/-- Three-component vector, mirroring `Vec3` from `appsrc/include/Math/vec3.h`
(the `m_fAxis` components become named fields). -/
structure Vec3 where
  x : ℝ
  y : ℝ
  z : ℝ
deriving DecidableEq

namespace Vec3

instance : Add Vec3 := ⟨fun a b => ⟨a.x + b.x, a.y + b.y, a.z + b.z⟩⟩

instance : Sub Vec3 := ⟨fun a b => ⟨a.x - b.x, a.y - b.y, a.z - b.z⟩⟩

instance : Neg Vec3 := ⟨fun a => ⟨-a.x, -a.y, -a.z⟩⟩

instance : Mul Vec3 := ⟨fun a b => ⟨a.x * b.x, a.y * b.y, a.z * b.z⟩⟩

instance : SMul ℝ Vec3 := ⟨fun k v => ⟨k * v.x, k * v.y, k * v.z⟩⟩

instance : HDiv Vec3 ℝ Vec3 := ⟨fun v k => ⟨v.x / k, v.y / k, v.z / k⟩⟩

theorem add_def (a b : Vec3) : a + b = ⟨a.x + b.x, a.y + b.y, a.z + b.z⟩ := rfl

theorem sub_def (a b : Vec3) : a - b = ⟨a.x - b.x, a.y - b.y, a.z - b.z⟩ := rfl

theorem neg_def (a : Vec3) : -a = ⟨-a.x, -a.y, -a.z⟩ := rfl

theorem mul_def (a b : Vec3) : a * b = ⟨a.x * b.x, a.y * b.y, a.z * b.z⟩ := rfl

theorem smul_def (k : ℝ) (v : Vec3) : k • v = ⟨k * v.x, k * v.y, k * v.z⟩ := rfl

theorem divS_def (v : Vec3) (k : ℝ) : v / k = ⟨v.x / k, v.y / k, v.z / k⟩ := rfl

/-- `Vec3::SquaredLength` from `vec3.h`. -/
def SquaredLength (v : Vec3) : ℝ := v.x * v.x + v.y * v.y + v.z * v.z

/-- `Vec3::Length` from `vec3.h`. -/
def Length (v : Vec3) : ℝ := Real.sqrt (v.x * v.x + v.y * v.y + v.z * v.z)

end Vec3

/-- Free function `Dot` from `vec3.h`. -/
def Dot (a b : Vec3) : ℝ := a.x * b.x + a.y * b.y + a.z * b.z

/-- Free function `Cross` from `vec3.h`. -/
def Cross (a b : Vec3) : Vec3 :=
  ⟨a.y * b.z - a.z * b.y, -(a.x * b.z - a.z * b.x), a.x * b.y - a.y * b.x⟩

/-- Free function `Unit_Vector` from `vec3.h`: divide a vector by its length. -/
def Unit_Vector (v : Vec3) : Vec3 := v / v.Length

/-- A ray as in `ray.h`: origin plus (not necessarily unit) direction. -/
structure Ray where
  origin : Vec3
  direction : Vec3

/-- `Ray::PointAtParamenter` (the source's spelling) from `ray.h`. -/
def Ray.PointAtParamenter (r : Ray) (t : ℝ) : Vec3 := r.origin + t • r.direction

/-- The three material variants of `material.h`; the virtual `Scatter`
dispatch becomes a match on this inductive. -/
inductive Material where
  | lambertian (albedo : Vec3)
  | metal (albedo : Vec3) (fuzz : ℝ)
  | dielectric (refIdx : ℝ)

/-- The `Metal::Metal(albedo, fuzz)` constructor from `material.h`: the fuzz
member is set to the argument when it is below 1 and to 1 otherwise. -/
def mkMetal (albedo : Vec3) (fuzz : ℝ) : Material :=
  if fuzz < 1 then .metal albedo fuzz else .metal albedo 1

/-- The fuzz member stored in a material (0 for non-metals, which have none). -/
def Material.fuzzOf : Material → ℝ
  | .metal _ f => f
  | _ => 0

/-- `HitRecord` from `hittable.h`. -/
structure HitRecord where
  t : ℝ
  point : Vec3
  normal : Vec3
  material : Material

/-- A stand-in value for the default-initialized `HitRecord` temporaries the
C++ callers declare; no claim depends on its contents. -/
def hitRecord0 : HitRecord :=
  ⟨0, ⟨0, 0, 0⟩, ⟨0, 0, 0⟩, .lambertian ⟨0, 0, 0⟩⟩

/-- `Sphere` from `sphere.h`: center, radius and material. -/
structure Sphere where
  center : Vec3
  radius : ℝ
  material : Material

/-- `Sphere::Hit` from `appsrc/src/Math/sphere.cpp`: the quadratic
discriminant test followed by the two root checks against the open window
`(tMin, tMax)`.  The in/out record parameter is modelled by returning the
record next to the flag; on failure the record is returned untouched. -/
def Sphere.Hit (s : Sphere) (ray : Ray) (tMin tMax : ℝ) (rec : HitRecord) :
    Bool × HitRecord :=
  let oc := ray.origin - s.center
  let a := Dot ray.direction ray.direction
  let b := Dot oc ray.direction
  let c := Dot oc oc - s.radius * s.radius
  let desc := b * b - a * c
  if desc > 0 then
    let temp := (-b - Real.sqrt desc) / a
    if temp < tMax ∧ temp > tMin then
      (true, { t := temp
               point := ray.PointAtParamenter temp
               normal := (ray.PointAtParamenter temp - s.center) / s.radius
               material := s.material })
    else
      let temp2 := (-b + Real.sqrt desc) / a
      if temp2 < tMax ∧ temp2 > tMin then
        (true, { t := temp2
                 point := ray.PointAtParamenter temp2
                 normal := (ray.PointAtParamenter temp2 - s.center) / s.radius
                 material := s.material })
      else (false, rec)
  else (false, rec)

/-- The loop body of `HittableList::Hit` from
`appsrc/src/Math/hittablelist.cpp`, recursing over the remaining members.
State: the `_hittedAnything` flag, the `_closestSoFar` bound, the
`_tempRecord` temporary, and the caller's in/out record `outRec` (assigned
from the temporary on every member hit). -/
def listHitGo (ray : Ray) (tMin : ℝ) :
    List Sphere → Bool → ℝ → HitRecord → HitRecord → Bool × HitRecord
  | [], hitAny, _, _, outRec => (hitAny, outRec)
  | s :: rest, hitAny, closest, temp, outRec =>
    match s.Hit ray tMin closest temp with
    | (true, temp') => listHitGo ray tMin rest true temp'.t temp' temp'
    | (false, temp') => listHitGo ray tMin rest hitAny closest temp' outRec

/-- `HittableList::Hit` from `appsrc/src/Math/hittablelist.cpp`: fold the
members with a progressively narrowing `closest` bound that starts at
`tMax`.  `temp0` models the default-initialized `_tempRecord` local. -/
def HittableList.Hit (l : List Sphere) (ray : Ray) (tMin tMax : ℝ)
    (rec temp0 : HitRecord) : Bool × HitRecord :=
  listHitGo ray tMin l false tMax temp0 rec

/-- `FLT_MAX`, the upper window bound the integrators pass to `Hit`. -/
def FLT_MAX : ℝ := 340282346638528859811704183484516925440

/-- Free function `Reflect` from `material.h`. -/
def Reflect (v n : Vec3) : Vec3 := v - (2 * Dot v n) • n

/-- Free function `Refract` from `material.h`; the in/out refracted vector
becomes an `Option` result (`none` is the `false` return). -/
def Refract (vecIn normal : Vec3) (niOverNt : ℝ) : Option Vec3 :=
  let uv := Unit_Vector vecIn
  let dt := Dot uv normal
  let disc := 1 - niOverNt * niOverNt * (1 - dt * dt)
  if disc > 0 then
    some ((niOverNt • (uv - dt • normal)) - Real.sqrt disc • normal)
  else none

/-- Free function `Schlick` from `material.h`. -/
def Schlick (cosine refIdx : ℝ) : ℝ :=
  let r0 := (1 - refIdx) / (1 + refIdx)
  let r0' := r0 * r0
  r0' + (1 - r0') * (1 - cosine) ^ (5 : ℕ)

/-- The three `Scatter` overrides of `material.h` as one dispatch.  The calls
to `RandomInUnitSphere()` and `rand()` are modelled by the explicit inputs
`rv` (a point of the unit ball) and `ru` (a uniform draw in `[0,1)`).
`none` is the absorbed (`return false`) case. -/
def Material.Scatter (m : Material) (rayIn : Ray) (rec : HitRecord)
    (rv : Vec3) (ru : ℝ) : Option (Vec3 × Ray) :=
  match m with
  | .lambertian albedo =>
    let target := rec.point + rec.normal + rv
    some (albedo, ⟨rec.point, target - rec.point⟩)
  | .metal albedo fuzz =>
    let reflected := Reflect (Unit_Vector rayIn.direction) rec.normal
    let scattered : Ray := ⟨rec.point, reflected + fuzz • rv⟩
    if Dot scattered.direction rec.normal > 0 then some (albedo, scattered)
    else none
  | .dielectric refIdx =>
    let reflected := Reflect rayIn.direction rec.normal
    let entering := Dot rayIn.direction rec.normal > 0
    let outwardNormal := if entering then -rec.normal else rec.normal
    let niOverNt := if entering then refIdx else 1 / refIdx
    let cosRaw := Dot rayIn.direction rec.normal / rayIn.direction.Length
    let cosine :=
      if entering then Real.sqrt (1 - refIdx * refIdx * (1 - cosRaw * cosRaw))
      else -cosRaw
    match Refract rayIn.direction outwardNormal niOverNt with
    | some refracted =>
      let reflectProb := Schlick cosine refIdx
      if ru < reflectProb then some (⟨1, 1, 1⟩, ⟨rec.point, reflected⟩)
      else some (⟨1, 1, 1⟩, ⟨rec.point, refracted⟩)
    | none => some (⟨1, 1, 1⟩, ⟨rec.point, reflected⟩)

/-- The sky gradient both integrators fall back to on a miss:
`lerp(white, skyBlue, 0.5 * (unitDirection.y + 1))`. -/
def skyColor (ray : Ray) : Vec3 :=
  let unitDir := Unit_Vector ray.direction
  let t := 0.5 * (unitDir.y + 1)
  (1 - t) • (⟨1, 1, 1⟩ : Vec3) + t • (⟨0.5, 0.7, 1⟩ : Vec3)

/-- The recursive `Color` function of the legacy renderer
(`src/unnamed/part_003`): scatter while `depth < 50`, else black; misses
return the sky gradient.  The per-bounce random draws are supplied by the
streams `rv`/`ru` indexed by recursion depth. -/
def Color (world : List Sphere) (rv : ℕ → Vec3) (ru : ℕ → ℝ)
    (ray : Ray) (depth : ℕ) : Vec3 :=
  let hit := HittableList.Hit world ray 0.001 FLT_MAX hitRecord0 hitRecord0
  if hit.1 then
    if _h : depth < 50 then
      match hit.2.material.Scatter ray hit.2 (rv depth) (ru depth) with
      | some (attenuation, scattered) =>
        attenuation * Color world rv ru scattered (depth + 1)
      | none => ⟨0, 0, 0⟩
    else ⟨0, 0, 0⟩
  else skyColor ray
termination_by 50 - depth
decreasing_by omega

/-- `ColorOptimized` from `src/main_optimized.cpp` (the `main_interactive.cpp`
copy is identical): return black once `depth >= max_depth`, bounce with a
hard-coded 0.5 falloff on a hit, and return the sky gradient on a miss.
`rv` supplies the per-bounce `FastRandom` vector, indexed by depth. -/
def ColorOptimized (world : List Sphere) (rv : ℕ → Vec3) (ray : Ray)
    (depth maxDepth : ℕ) : Vec3 :=
  if depth ≥ maxDepth then ⟨0, 0, 0⟩
  else
    let hit := HittableList.Hit world ray 0.001 FLT_MAX hitRecord0 hitRecord0
    if hit.1 then
      let target := hit.2.point + hit.2.normal + rv depth
      (0.5 : ℝ) • ColorOptimized world rv ⟨hit.2.point, target - hit.2.point⟩
        (depth + 1) maxDepth
    else skyColor ray
termination_by maxDepth - depth
decreasing_by omega

/-- `Camera` from `camera.h`. -/
structure Camera where
  origin : Vec3
  lowerLeftCorner : Vec3
  horizontal : Vec3
  vertical : Vec3
  u : Vec3
  v : Vec3
  w : Vec3
  lensRadius : ℝ

/-- The `Camera` constructor from `appsrc/src/Math/camera.cpp`. -/
def Camera.build (lookFrom lookAt up : Vec3)
    (fov aspect aperture focusDist : ℝ) : Camera :=
  let lensRadius := aperture / 2
  let theta := fov * Real.pi / 180
  let halfHeight := Real.tan (theta / 2)
  let halfWidth := aspect * halfHeight
  let w := Unit_Vector (lookFrom - lookAt)
  let u := Unit_Vector (Cross up w)
  let v := Cross w u
  { origin := lookFrom
    lowerLeftCorner := lookFrom - (halfWidth * focusDist) • u
      - (halfHeight * focusDist) • v - focusDist • w
    horizontal := (2 * halfWidth * focusDist) • u
    vertical := (2 * halfHeight * focusDist) • v
    u := u, v := v, w := w
    lensRadius := lensRadius }

/-- `Camera::GetRay` from `appsrc/src/Math/camera.cpp`; the call to
`RandomUnitInDisk()` is modelled by the explicit input `disk`. -/
def Camera.GetRay (cam : Camera) (a b : ℝ) (disk : Vec3) : Ray :=
  let rd := cam.lensRadius • disk
  let offset := rd.x • cam.u + rd.y • cam.v
  ⟨cam.origin + offset,
   cam.lowerLeftCorner + a • cam.horizontal + b • cam.vertical
     - cam.origin - offset⟩

/-- `RenderTile` from `performance.h`. -/
structure RenderTile where
  x_start : ℕ
  y_start : ℕ
  width : ℕ
  height : ℕ
  samples_per_pixel : ℕ

/-- The `for (v = s; v < bound; v += ts)` loop-index sequence used by
`create_tiles` in `performance.h`. -/
def startsFrom (ts bound s : ℕ) : List ℕ :=
  if _h : s < bound ∧ 0 < ts then s :: startsFrom ts bound (s + ts) else []
termination_by bound - s
decreasing_by omega

/-- `create_tiles` from `performance.h`: one tile per `(x, y)` loop-index
pair, with width and height clipped to the image bounds. -/
def create_tiles (image_width image_height samples tile_size : ℕ) :
    List RenderTile :=
  (startsFrom tile_size image_height 0).flatMap fun y =>
    (startsFrom tile_size image_width 0).map fun x =>
      ⟨x, y, min tile_size (image_width - x),
        min tile_size (image_height - y), samples⟩

/-- Pixel `(px, py)` lies in the rectangle of tile `t`. -/
def tileContains (t : RenderTile) (px py : ℕ) : Bool :=
  decide (t.x_start ≤ px ∧ px < t.x_start + t.width ∧
    t.y_start ≤ py ∧ py < t.y_start + t.height)

/-- The running `col +=` sum of the per-sample loop in the tile renderers:
`accumSamples f n` is the accumulator after `n` iterations. -/
def accumSamples (f : ℕ → Vec3) : ℕ → Vec3
  | 0 => ⟨0, 0, 0⟩
  | n + 1 => accumSamples f n + f n

/-- The `sqrtf` gamma-correction step of the tile renderers. -/
def gammaCorrect (v : Vec3) : Vec3 :=
  ⟨Real.sqrt v.x, Real.sqrt v.y, Real.sqrt v.z⟩

/-- The per-sample radiance estimate of `render_tile_optimized`
(`src/main_optimized.cpp`): jitter `(u, v)` inside pixel `(i, j)`, build the
camera ray and evaluate `ColorOptimized` from depth 0.  `jit` supplies the
two `FastRandom` jitters of sample `s`, `disk` its lens-disk sample and
`rv s` the bounce randomness of its path. -/
def sampleRadiance (world : List Sphere) (cam : Camera) (nx ny i j : ℕ)
    (jit : ℕ → ℝ × ℝ) (disk : ℕ → Vec3) (rv : ℕ → ℕ → Vec3)
    (maxDepth : ℕ) (s : ℕ) : Vec3 :=
  let u := ((i : ℝ) + (jit s).1) / (nx : ℝ)
  let v := ((j : ℝ) + (jit s).2) / (ny : ℝ)
  ColorOptimized world (rv s) (cam.GetRay u v (disk s)) 0 maxDepth

/-- The whole per-pixel body of `render_tile_optimized`: accumulate the
samples, divide by the sample count, gamma-correct. -/
def renderPixel (world : List Sphere) (cam : Camera) (nx ny i j : ℕ)
    (jit : ℕ → ℝ × ℝ) (disk : ℕ → Vec3) (rv : ℕ → ℕ → Vec3)
    (maxDepth samples : ℕ) : Vec3 :=
  let col := accumSamples (sampleRadiance world cam nx ny i j jit disk rv maxDepth)
    samples
  let col := col / (samples : ℝ)
  gammaCorrect col

/-- Row-major coordinate traversal of a tile, row `y0` first, as performed by
the nested pixel loops of the tile renderers. -/
def tileCoords (x0 y0 w : ℕ) : ℕ → List (ℕ × ℕ)
  | 0 => []
  | h + 1 => ((List.range w).map fun dx => (x0 + dx, y0)) ++ tileCoords x0 (y0 + 1) w h

/-- Sequential writes of pixel values into the shared buffer at index
`j * nx + i` (the buffer is modelled as a function from indices). -/
def writeAll (nx : ℕ) (pixelVal : ℕ → ℕ → Vec3) (buf : ℕ → Vec3) :
    List (ℕ × ℕ) → ℕ → Vec3
  | [], q => buf q
  | c :: rest, q =>
    writeAll nx pixelVal (Function.update buf (c.2 * nx + c.1) (pixelVal c.1 c.2)) rest q

/-- The pixel loop of `render_tile_progressive` (`src/main_interactive.cpp`):
before each pixel the shared stop flag is read; `stopObs k` is the value the
`k`-th such read observes.  On an observed stop the function returns, leaving
the buffer as it stands; otherwise the pixel value is written and the loop
continues. -/
def progressiveGo (nx : ℕ) (stopObs : ℕ → Bool) (pixelVal : ℕ → ℕ → Vec3) :
    List (ℕ × ℕ) → ℕ → (ℕ → Vec3) → ℕ → Vec3
  | [], _, buf => buf
  | c :: rest, k, buf =>
    if stopObs k then buf
    else progressiveGo nx stopObs pixelVal rest (k + 1)
      (Function.update buf (c.2 * nx + c.1) (pixelVal c.1 c.2))

/-- `render_tile_progressive` from `src/main_interactive.cpp`, restricted to
its effect on the shared pixel buffer: traverse the tile row-major, checking
the stop flag before each pixel. -/
def render_tile_progressive (tile : RenderTile) (nx : ℕ) (stopObs : ℕ → Bool)
    (pixelVal : ℕ → ℕ → Vec3) (buf : ℕ → Vec3) : ℕ → Vec3 :=
  progressiveGo nx stopObs pixelVal
    (tileCoords tile.x_start tile.y_start tile.width tile.height) 0 buf

/-- `render_tile_optimized` from `src/main_optimized.cpp`, restricted to its
effect on the shared pixel buffer: write `renderPixel` at every pixel of the
tile, row-major, with no stop check. -/
def render_tile_optimized (tile : RenderTile) (nx : ℕ)
    (pixelVal : ℕ → ℕ → Vec3) (buf : ℕ → Vec3) : ℕ → Vec3 :=
  writeAll nx pixelVal buf
    (tileCoords tile.x_start tile.y_start tile.width tile.height)

/-- The `_a` coefficient of `Sphere::Hit`. -/
def sphereA (ray : Ray) : ℝ := Dot ray.direction ray.direction

/-- The `_b` coefficient of `Sphere::Hit`. -/
def sphereB (s : Sphere) (ray : Ray) : ℝ := Dot (ray.origin - s.center) ray.direction

/-- The `_c` coefficient of `Sphere::Hit`. -/
def sphereC (s : Sphere) (ray : Ray) : ℝ :=
  Dot (ray.origin - s.center) (ray.origin - s.center) - s.radius * s.radius

/-- The `_desc` discriminant of `Sphere::Hit`. -/
def sphereDisc (s : Sphere) (ray : Ray) : ℝ :=
  sphereB s ray * sphereB s ray - sphereA ray * sphereC s ray

/-- The first (nearer, for positive `a`) root `Sphere::Hit` tries. -/
def sphereT1 (s : Sphere) (ray : Ray) : ℝ :=
  (-sphereB s ray - Real.sqrt (sphereDisc s ray)) / sphereA ray

/-- The second root `Sphere::Hit` falls back to. -/
def sphereT2 (s : Sphere) (ray : Ray) : ℝ :=
  (-sphereB s ray + Real.sqrt (sphereDisc s ray)) / sphereA ray

/-- The record `Sphere::Hit` fills in for a root `u`. -/
def sphereRecAt (s : Sphere) (ray : Ray) (u : ℝ) : HitRecord :=
  { t := u
    point := ray.PointAtParamenter u
    normal := (ray.PointAtParamenter u - s.center) / s.radius
    material := s.material }

/-- The parametric result of `Sphere::Hit`: the returned `t` when the flag is
set, `none` otherwise. -/
def sphereHitT (s : Sphere) (ray : Ray) (tMin tMax : ℝ) : Option ℝ :=
  if (s.Hit ray tMin tMax hitRecord0).1 then
    some (s.Hit ray tMin tMax hitRecord0).2.t
  else none

/-- The root-selection rule exactly as the specification words it: none when
`disc <= 0`, otherwise the first of `t1`, `t2` that lies strictly inside
`(tMin, tMax)`, else none.  Kept separate from the source translation so the
two can be compared. -/
def sphereHitSpecRoot (s : Sphere) (ray : Ray) (tMin tMax : ℝ) : Option ℝ :=
  if sphereDisc s ray ≤ 0 then none
  else if tMin < sphereT1 s ray ∧ sphereT1 s ray < tMax then some (sphereT1 s ray)
  else if tMin < sphereT2 s ray ∧ sphereT2 s ray < tMax then some (sphereT2 s ray)
  else none

/-- The parametric result of the aggregate `HittableList::Hit`, read off a
flag/record pair. -/
def hitResultT (p : Bool × HitRecord) : Option ℝ :=
  if p.1 then some p.2.t else none

/-- The minimum of two optional parametric distances (`none` = no hit). -/
def minO : Option ℝ → Option ℝ → Option ℝ
  | none, b => b
  | some a, none => some a
  | some a, some b => some (min a b)

/-- A concrete test sphere: the unit sphere centred two units down the z axis. -/
def sphere0 : Sphere := ⟨⟨0, 0, 2⟩, 1, .lambertian ⟨0, 0, 0⟩⟩

/-- The same test sphere with its radius negated. -/
def sphere0neg : Sphere := ⟨⟨0, 0, 2⟩, -1, .lambertian ⟨0, 0, 0⟩⟩

/-- A concrete ray from the origin towards the test sphere. -/
def ray0 : Ray := ⟨⟨0, 0, 0⟩, ⟨0, 0, 1⟩⟩

/-- A second, farther test sphere on the same ray. -/
def sphereFar : Sphere := ⟨⟨0, 0, 5⟩, 1, .lambertian ⟨0, 0, 0⟩⟩

/-- A concrete ray pointing straight up (towards the sky zenith). -/
def rayUp : Ray := ⟨⟨0, 0, 0⟩, ⟨0, 1, 0⟩⟩

/-- A trivial bounce-randomness stream (all zero). -/
def rv0 : ℕ → Vec3 := fun _ => ⟨0, 0, 0⟩

/-- A trivial uniform-draw stream (all zero). -/
def ru0 : ℕ → ℝ := fun _ => 0

/-- All three components lie in the unit interval `[0, 1]`. -/
def inRange01 (v : Vec3) : Prop :=
  0 ≤ v.x ∧ v.x ≤ 1 ∧ 0 ≤ v.y ∧ v.y ≤ 1 ∧ 0 ≤ v.z ∧ v.z ≤ 1

/-- The camera configuration of `main_optimized.cpp`. -/
def cam0 : Camera :=
  Camera.build ⟨13, 2, 3⟩ ⟨0, 0, 0⟩ ⟨0, 1, 0⟩ 20 (800 / 600) 0 10

/-- Cauchy–Schwarz for the 3-component dot product, via Lagrange's identity. -/
lemma dot_sq_le_dot_mul_dot (u v : Vec3) :
    Dot u v * Dot u v ≤ Dot u u * Dot v v := by
  simp only [Dot]
  nlinarith [sq_nonneg (u.x * v.y - u.y * v.x), sq_nonneg (u.x * v.z - u.z * v.x),
    sq_nonneg (u.y * v.z - u.z * v.y)]

/-- `Sphere::Hit` rewritten through the named subexpressions (definitional). -/
lemma Sphere.Hit_eq (s : Sphere) (ray : Ray) (tMin tMax : ℝ) (rec : HitRecord) :
    s.Hit ray tMin tMax rec =
      if sphereDisc s ray > 0 then
        if sphereT1 s ray < tMax ∧ sphereT1 s ray > tMin then
          (true, sphereRecAt s ray (sphereT1 s ray))
        else if sphereT2 s ray < tMax ∧ sphereT2 s ray > tMin then
          (true, sphereRecAt s ray (sphereT2 s ray))
        else (false, rec)
      else (false, rec) := rfl

lemma dot_self_nonneg (v : Vec3) : 0 ≤ Dot v v := by
  simp only [Dot]
  nlinarith [mul_self_nonneg v.x, mul_self_nonneg v.y, mul_self_nonneg v.z]

/-- When the discriminant is positive the leading coefficient is positive:
`a = 0` forces `b = 0` by Cauchy–Schwarz and hence `disc = 0`. -/
lemma sphereA_pos_of_disc (s : Sphere) (ray : Ray)
    (hd : 0 < sphereDisc s ray) : 0 < sphereA ray := by
  rcases (dot_self_nonneg ray.direction).lt_or_eq with hlt | heq
  · exact hlt
  · exfalso
    have hcs := dot_sq_le_dot_mul_dot (ray.origin - s.center) ray.direction
    have hoc := dot_self_nonneg (ray.origin - s.center)
    unfold sphereDisc sphereA sphereB sphereC at hd
    nlinarith

/-- The first root is never above the second. -/
lemma sphereT1_le_sphereT2 (s : Sphere) (ray : Ray)
    (hd : 0 < sphereDisc s ray) : sphereT1 s ray ≤ sphereT2 s ray := by
  have ha := sphereA_pos_of_disc s ray hd
  have hs := Real.sqrt_nonneg (sphereDisc s ray)
  unfold sphereT1 sphereT2
  rw [div_le_div_iff₀ ha ha]
  nlinarith

lemma minO_none_right (a : Option ℝ) : minO a none = a := by
  cases a <;> rfl

lemma minO_comm (a b : Option ℝ) : minO a b = minO b a := by
  cases a <;> cases b <;> simp [minO, min_comm]

lemma minO_left_comm (a b c : Option ℝ) :
    minO a (minO b c) = minO b (minO a c) := by
  cases a <;> cases b <;> cases c <;> simp [minO, min_left_comm, min_comm]

lemma minO_absorb {u w : ℝ} (h : u ≤ w) (c : Option ℝ) :
    minO (some u) (minO (some w) c) = minO (some u) c := by
  cases c with
  | none => simp [minO, min_eq_left h]
  | some v =>
    simp only [minO, Option.some.injEq]
    rw [← min_assoc, min_eq_left h]

/-- A sphere hit in a window contains a parameter strictly inside it. -/
lemma sphereHitT_bounds {s : Sphere} {ray : Ray} {tMin T u : ℝ}
    (h : sphereHitT s ray tMin T = some u) : tMin < u ∧ u < T := by
  unfold sphereHitT at h
  rw [Sphere.Hit_eq] at h
  by_cases hd : sphereDisc s ray > 0
  · rw [if_pos hd] at h
    by_cases h1 : sphereT1 s ray < T ∧ sphereT1 s ray > tMin
    · rw [if_pos h1] at h
      have : sphereT1 s ray = u := by simpa using h
      exact this ▸ ⟨h1.2, h1.1⟩
    · rw [if_neg h1] at h
      by_cases h2 : sphereT2 s ray < T ∧ sphereT2 s ray > tMin
      · rw [if_pos h2] at h
        have : sphereT2 s ray = u := by simpa using h
        exact this ▸ ⟨h2.2, h2.1⟩
      · rw [if_neg h2] at h
        simp at h
  · rw [if_neg hd] at h
    simp at h

/-- Narrowing the upper window bound loses exactly the hits at or beyond the
narrowed bound: the progressive `closestSoFar` trick is lossless. -/
lemma sphereHitT_narrow (s : Sphere) (ray : Ray) {tMin T T' : ℝ}
    (hT : T' ≤ T) (u : ℝ) :
    sphereHitT s ray tMin T' = some u ↔
      sphereHitT s ray tMin T = some u ∧ u < T' := by
  unfold sphereHitT
  rw [Sphere.Hit_eq, Sphere.Hit_eq]
  by_cases hd : sphereDisc s ray > 0
  · have h12 := sphereT1_le_sphereT2 s ray hd
    rw [if_pos hd, if_pos hd]
    by_cases hA' : sphereT1 s ray < T' ∧ sphereT1 s ray > tMin
    · have hA : sphereT1 s ray < T ∧ sphereT1 s ray > tMin :=
        ⟨lt_of_lt_of_le hA'.1 hT, hA'.2⟩
      rw [if_pos hA', if_pos hA]
      simp only [if_pos rfl]
      constructor
      · intro h
        have hu : sphereT1 s ray = u := by simpa using h
        exact ⟨h, hu ▸ hA'.1⟩
      · exact fun h => h.1
    · by_cases hB' : sphereT2 s ray < T' ∧ sphereT2 s ray > tMin
      · have ht1min : ¬ sphereT1 s ray > tMin := by
          intro hgt
          exact hA' ⟨lt_of_le_of_lt h12 hB'.1, hgt⟩
        have hA : ¬(sphereT1 s ray < T ∧ sphereT1 s ray > tMin) :=
          fun hc => ht1min hc.2
        have hB : sphereT2 s ray < T ∧ sphereT2 s ray > tMin :=
          ⟨lt_of_lt_of_le hB'.1 hT, hB'.2⟩
        rw [if_neg hA', if_pos hB', if_neg hA, if_pos hB]
        simp only [if_pos rfl]
        constructor
        · intro h
          have hu : sphereT2 s ray = u := by simpa using h
          exact ⟨h, hu ▸ hB'.1⟩
        · exact fun h => h.1
      · rw [if_neg hA', if_neg hB']
        simp only [if_neg (by simp : ¬((false, hitRecord0).1 = true))]
        constructor
        · intro h
          exact absurd h (by simp)
        · rintro ⟨h, hu⟩
          exfalso
          by_cases hA : sphereT1 s ray < T ∧ sphereT1 s ray > tMin
          · rw [if_pos hA] at h
            have hu1 : sphereT1 s ray = u := by simpa using h
            exact hA' ⟨hu1 ▸ hu, hA.2⟩
          · rw [if_neg hA] at h
            by_cases hB : sphereT2 s ray < T ∧ sphereT2 s ray > tMin
            · rw [if_pos hB] at h
              have hu2 : sphereT2 s ray = u := by simpa using h
              exact hB' ⟨hu2 ▸ hu, hB.2⟩
            · rw [if_neg hB] at h
              simp at h
  · rw [if_neg hd, if_neg hd]
    simp

/-- If a sphere hit reports a root, `Sphere::Hit` returns the corresponding
filled record whatever record was passed in. -/
lemma sphere_hit_of_someT {s : Sphere} {ray : Ray} {tMin T u : ℝ}
    (h : sphereHitT s ray tMin T = some u) (rec : HitRecord) :
    s.Hit ray tMin T rec = (true, sphereRecAt s ray u) := by
  unfold sphereHitT at h
  rw [Sphere.Hit_eq] at h ⊢
  by_cases hd : sphereDisc s ray > 0
  · rw [if_pos hd] at h ⊢
    by_cases h1 : sphereT1 s ray < T ∧ sphereT1 s ray > tMin
    · rw [if_pos h1] at h ⊢
      have : sphereT1 s ray = u := by simpa using h
      rw [this]
    · rw [if_neg h1] at h ⊢
      by_cases h2 : sphereT2 s ray < T ∧ sphereT2 s ray > tMin
      · rw [if_pos h2] at h ⊢
        have : sphereT2 s ray = u := by simpa using h
        rw [this]
      · rw [if_neg h2] at h
        simp at h
  · rw [if_neg hd] at h
    simp at h

/-- If a sphere hit reports no root, `Sphere::Hit` returns the passed-in
record untouched with a false flag. -/
lemma sphere_hit_of_noneT {s : Sphere} {ray : Ray} {tMin T : ℝ}
    (h : sphereHitT s ray tMin T = none) (rec : HitRecord) :
    s.Hit ray tMin T rec = (false, rec) := by
  unfold sphereHitT at h
  rw [Sphere.Hit_eq] at h ⊢
  by_cases hd : sphereDisc s ray > 0
  · rw [if_pos hd] at h ⊢
    by_cases h1 : sphereT1 s ray < T ∧ sphereT1 s ray > tMin
    · rw [if_pos h1] at h
      simp at h
    · rw [if_neg h1] at h ⊢
      by_cases h2 : sphereT2 s ray < T ∧ sphereT2 s ray > tMin
      · rw [if_pos h2] at h
        simp at h
      · rw [if_neg h2]
  · rw [if_neg hd]

/-- Pulling the base value out of a `minO` fold. -/
lemma foldr_minO_base (g : Sphere → Option ℝ) (b : Option ℝ) :
    ∀ l : List Sphere,
      l.foldr (fun s acc => minO (g s) acc) b =
        minO (l.foldr (fun s acc => minO (g s) acc) none) b
  | [] => rfl
  | s :: l => by
    simp only [List.foldr_cons, foldr_minO_base g b l]
    cases g s <;> cases l.foldr (fun s acc => minO (g s) acc) none <;>
      cases b <;> simp [minO, min_assoc]

/-- Folding the members against the narrowed window with best-so-far `u` is
the same as taking `minO` of `u` with the fold against the original wider
window `W`. -/
lemma foldr_minO_narrow (ray : Ray) (tMin : ℝ) :
    ∀ (l : List Sphere) (u W : ℝ), u < W →
      l.foldr (fun s acc => minO (sphereHitT s ray tMin u) acc) (some u) =
        minO (some u)
          (l.foldr (fun s acc => minO (sphereHitT s ray tMin W) acc) none)
  | [], u, W, _ => rfl
  | s :: l, u, W, hu => by
    simp only [List.foldr_cons, foldr_minO_narrow ray tMin l u W hu]
    rcases hw : sphereHitT s ray tMin W with _ | v
    · have hn : sphereHitT s ray tMin u = none := by
        rcases hn : sphereHitT s ray tMin u with _ | x
        · rfl
        · have := (sphereHitT_narrow s ray (le_of_lt hu) x).mp hn
          rw [hw] at this
          exact absurd this.1 (by simp)
      rw [hn]
      rfl
    · by_cases hvu : v < u
      · have hnu : sphereHitT s ray tMin u = some v :=
          (sphereHitT_narrow s ray (le_of_lt hu) v).mpr ⟨hw, hvu⟩
        rw [hnu, minO_left_comm]
      · have hnu : sphereHitT s ray tMin u = none := by
          rcases hn : sphereHitT s ray tMin u with _ | x
          · rfl
          · have hx := (sphereHitT_narrow s ray (le_of_lt hu) x).mp hn
            rw [hw] at hx
            have hxv : v = x := by simpa using hx.1
            exact absurd (show v < u by rw [hxv]; exact hx.2) hvu
        rw [hnu]
        show minO (some u) _ = _
        rw [minO_absorb (not_lt.mp hvu) _]

/-- The loop of `HittableList::Hit`, characterized: starting from flag
`hitAny`, narrowed bound `closest` and a record whose parameter is `closest`
when the flag is set, the final parametric result is the `minO` fold of the
members' full-window results against the incoming best. -/
lemma listHitGo_resT (ray : Ray) (tMin : ℝ) :
    ∀ (l : List Sphere) (closest : ℝ) (temp outRec : HitRecord) (hitAny : Bool),
      (hitAny = true → outRec = temp ∧ temp.t = closest) →
      hitResultT (listHitGo ray tMin l hitAny closest temp outRec) =
        l.foldr (fun s acc => minO (sphereHitT s ray tMin closest) acc)
          (if hitAny then some closest else none)
  | [], closest, temp, outRec, hitAny, hinv => by
    cases hitAny with
    | false => rfl
    | true =>
      obtain ⟨ho, ht⟩ := hinv rfl
      simp [listHitGo, hitResultT, ho, ht]
  | s :: l, closest, temp, outRec, hitAny, hinv => by
    rcases hs : sphereHitT s ray tMin closest with _ | u
    · simp only [listHitGo, sphere_hit_of_noneT hs temp]
      rw [listHitGo_resT ray tMin l closest temp outRec hitAny hinv]
      simp only [List.foldr_cons, hs]
      rfl
    · simp only [listHitGo, sphere_hit_of_someT hs temp]
      have hrt : (sphereRecAt s ray u).t = u := rfl
      rw [hrt]
      rw [listHitGo_resT ray tMin l u (sphereRecAt s ray u) (sphereRecAt s ray u)
        true (fun _ => ⟨rfl, rfl⟩)]
      have hub := sphereHitT_bounds hs
      simp only [List.foldr_cons, hs, eq_self_iff_true, if_true]
      rw [foldr_minO_narrow ray tMin l u closest hub.2]
      rw [foldr_minO_base (fun s => sphereHitT s ray tMin closest)
        (if hitAny = true then some closest else none) l]
      cases hitAny
      · simp [minO_none_right]
      · simp only [eq_self_iff_true, if_true]
        rw [minO_comm
          (l.foldr (fun s acc => minO (sphereHitT s ray tMin closest) acc) none)
          (some closest)]
        rw [minO_absorb (le_of_lt hub.2)]

/-- The parametric result of `HittableList::Hit` is the `minO` fold of the
members' results against the full window. -/
lemma hittableList_resT (l : List Sphere) (ray : Ray) (tMin tMax : ℝ)
    (rec temp0 : HitRecord) :
    hitResultT (HittableList.Hit l ray tMin tMax rec temp0) =
      l.foldr (fun s acc => minO (sphereHitT s ray tMin tMax) acc) none := by
  unfold HittableList.Hit
  exact listHitGo_resT ray tMin l tMax temp0 rec false (by simp)

/-- A `minO` fold returning `none` means every member's result is `none`. -/
lemma foldr_minO_none (g : Sphere → Option ℝ) :
    ∀ l : List Sphere,
      l.foldr (fun s acc => minO (g s) acc) none = none →
      ∀ t ∈ l, g t = none
  | [], _, t, ht => absurd ht (List.not_mem_nil t)
  | s :: l, h, t, ht => by
    simp only [List.foldr_cons] at h
    rcases hg : g s with _ | a <;> rw [hg] at h
    · rcases List.mem_cons.mp ht with rfl | ht'
      · exact hg
      · exact foldr_minO_none g l h t ht'
    · exfalso
      rcases hfold : l.foldr (fun s acc => minO (g s) acc) none with _ | b <;>
        rw [hfold] at h <;> simp [minO] at h

/-- A `minO` fold returning `some u` means some member attains `u` and every
member's result is at least `u`. -/
lemma foldr_minO_some (g : Sphere → Option ℝ) :
    ∀ (l : List Sphere) (u : ℝ),
      l.foldr (fun s acc => minO (g s) acc) none = some u →
      (∃ s ∈ l, g s = some u) ∧
        ∀ s ∈ l, ∀ v, g s = some v → u ≤ v
  | [], u, h => by simp at h
  | s :: l, u, h => by
    simp only [List.foldr_cons] at h
    rcases hg : g s with _ | a <;> rw [hg] at h
    · obtain ⟨⟨s', hs', hgs'⟩, hmin⟩ := foldr_minO_some g l u h
      refine ⟨⟨s', List.mem_cons_of_mem s hs', hgs'⟩, ?_⟩
      intro t ht v hv
      rcases List.mem_cons.mp ht with rfl | ht'
      · rw [hg] at hv
        exact absurd hv (by simp)
      · exact hmin t ht' v hv
    · rcases hl : l.foldr (fun s acc => minO (g s) acc) none with _ | b <;>
        rw [hl] at h
      · have hau : a = u := by simpa [minO] using h
        refine ⟨⟨s, List.mem_cons_self s l, hau ▸ hg⟩, ?_⟩
        intro t ht v hv
        rcases List.mem_cons.mp ht with rfl | ht'
        · rw [hg] at hv
          have hav : a = v := by simpa using hv
          rw [← hau, hav]
        · exact absurd hv (by rw [foldr_minO_none g l hl t ht']; simp)
      · have hmu : min a b = u := by simpa [minO] using h
        obtain ⟨⟨s', hs', hgs'⟩, hminl⟩ := foldr_minO_some g l b hl
        refine ⟨?_, ?_⟩
        · rcases le_total a b with hab | hba
          · exact ⟨s, List.mem_cons_self s l, by rw [hg, ← hmu, min_eq_left hab]⟩
          · exact ⟨s', List.mem_cons_of_mem s hs', by
              rw [hgs', ← hmu, min_eq_right hba]⟩
        · intro t ht v hv
          rcases List.mem_cons.mp ht with rfl | ht'
          · rw [hg] at hv
            have hav : a = v := by simpa using hv
            rw [← hmu, ← hav]
            exact min_le_left a b
          · have := hminl t ht' v hv
            rw [← hmu]
            exact le_trans (min_le_right a b) this

/-- C1: for every window with `tMin < tMax`, the sphere hit test returns
exactly the root the specification describes — none when `disc <= 0`,
otherwise the smallest of the two quadratic roots strictly inside
`(tMin, tMax)`, trying the nearer root first. -/
theorem sphere_hit_root_selection (s : Sphere) (ray : Ray) (tMin tMax : ℝ)
    (_h : tMin < tMax) :
    sphereHitT s ray tMin tMax = sphereHitSpecRoot s ray tMin tMax ∧
    (sphereDisc s ray ≤ 0 → sphereHitT s ray tMin tMax = none) ∧
    ∀ u, sphereHitT s ray tMin tMax = some u →
      (u = sphereT1 s ray ∨ u = sphereT2 s ray) ∧ tMin < u ∧ u < tMax ∧
      ∀ v, (v = sphereT1 s ray ∨ v = sphereT2 s ray) → tMin < v → v < tMax →
        u ≤ v := by
  have hmain : sphereHitT s ray tMin tMax = sphereHitSpecRoot s ray tMin tMax := by
    unfold sphereHitT sphereHitSpecRoot
    rw [Sphere.Hit_eq]
    by_cases hd : sphereDisc s ray > 0
    · rw [if_pos hd, if_neg (not_le.mpr hd)]
      by_cases h1 : sphereT1 s ray < tMax ∧ sphereT1 s ray > tMin
      · have h1' : tMin < sphereT1 s ray ∧ sphereT1 s ray < tMax := ⟨h1.2, h1.1⟩
        rw [if_pos h1, if_pos h1']
        rfl
      · have h1' : ¬(tMin < sphereT1 s ray ∧ sphereT1 s ray < tMax) :=
          fun hc => h1 ⟨hc.2, hc.1⟩
        rw [if_neg h1, if_neg h1']
        by_cases h2 : sphereT2 s ray < tMax ∧ sphereT2 s ray > tMin
        · have h2' : tMin < sphereT2 s ray ∧ sphereT2 s ray < tMax := ⟨h2.2, h2.1⟩
          rw [if_pos h2, if_pos h2']
          rfl
        · have h2' : ¬(tMin < sphereT2 s ray ∧ sphereT2 s ray < tMax) :=
            fun hc => h2 ⟨hc.2, hc.1⟩
          rw [if_neg h2, if_neg h2']
          rfl
    · rw [if_neg hd, if_pos (not_lt.mp hd)]
      rfl
  refine ⟨hmain, ?_, ?_⟩
  · intro hle
    rw [hmain]
    unfold sphereHitSpecRoot
    rw [if_pos hle]
  · intro u hu
    rw [hmain] at hu
    unfold sphereHitSpecRoot at hu
    by_cases hle : sphereDisc s ray ≤ 0
    · rw [if_pos hle] at hu
      exact absurd hu (by simp)
    · rw [if_neg hle] at hu
      have hd : 0 < sphereDisc s ray := not_le.mp hle
      have h12 := sphereT1_le_sphereT2 s ray hd
      by_cases h1 : tMin < sphereT1 s ray ∧ sphereT1 s ray < tMax
      · rw [if_pos h1] at hu
        have hu1 : u = sphereT1 s ray := by
          exact (Option.some_injective _ hu).symm
        subst hu1
        exact ⟨Or.inl rfl, h1.1, h1.2, fun v hv _ _ => by
          rcases hv with rfl | rfl
          · exact le_refl _
          · exact h12⟩
      · rw [if_neg h1] at hu
        by_cases h2 : tMin < sphereT2 s ray ∧ sphereT2 s ray < tMax
        · rw [if_pos h2] at hu
          have hu2 : u = sphereT2 s ray := (Option.some_injective _ hu).symm
          subst hu2
          exact ⟨Or.inr rfl, h2.1, h2.2, fun v hv hva hvb => by
            rcases hv with rfl | rfl
            · exact absurd ⟨hva, hvb⟩ h1
            · exact le_refl _⟩
        · rw [if_neg h2] at hu
          exact absurd hu (by simp)

/-- C9: a zero-radius sphere reports no hit for every ray and window: its
discriminant `b² - a·|oc|²` is never positive, by Cauchy–Schwarz. -/
theorem degenerate_sphere_no_hit :
    (∀ (c : Vec3) (m : Material) (ray : Ray) (tMin tMax : ℝ) (rec : HitRecord),
      Sphere.Hit ⟨c, 0, m⟩ ray tMin tMax rec = (false, rec)) ∧
    (∀ (s : Sphere) (o : Vec3) (tMin tMax : ℝ) (rec : HitRecord),
      Sphere.Hit s ⟨o, ⟨0, 0, 0⟩⟩ tMin tMax rec = (false, rec)) := by
  constructor
  · intro c m ray tMin tMax rec
    simp only [Sphere.Hit]
    rw [if_neg]
    have h := dot_sq_le_dot_mul_dot (ray.origin - c) ray.direction
    have hcomm : Dot (ray.origin - c) ray.direction =
        Dot ray.direction (ray.origin - c) := by simp only [Dot]; ring
    intro hpos
    rw [hcomm] at h hpos
    nlinarith
  · intro s o tMin tMax rec
    simp only [Sphere.Hit, Dot]
    norm_num

/-- C3: every returned sphere hit record carries the normal
`(point - center) / radius` with no absolute value on the radius, and a
sphere of negated radius hits at exactly the same parameter and point but
returns the exactly negated normal. -/
theorem sphere_hit_normal_negation :
    (∀ (s : Sphere) (ray : Ray) (tMin tMax : ℝ) (rec : HitRecord),
      (Sphere.Hit s ray tMin tMax rec).1 = true →
      (Sphere.Hit s ray tMin tMax rec).2.normal =
        ((Sphere.Hit s ray tMin tMax rec).2.point - s.center) / s.radius) ∧
    (∀ (c : Vec3) (ρ : ℝ) (m m' : Material) (ray : Ray) (tMin tMax : ℝ)
      (rec : HitRecord),
      (Sphere.Hit ⟨c, -ρ, m'⟩ ray tMin tMax rec).1 =
        (Sphere.Hit ⟨c, ρ, m⟩ ray tMin tMax rec).1 ∧
      ((Sphere.Hit ⟨c, ρ, m⟩ ray tMin tMax rec).1 = true →
        (Sphere.Hit ⟨c, -ρ, m'⟩ ray tMin tMax rec).2.t =
          (Sphere.Hit ⟨c, ρ, m⟩ ray tMin tMax rec).2.t ∧
        (Sphere.Hit ⟨c, -ρ, m'⟩ ray tMin tMax rec).2.point =
          (Sphere.Hit ⟨c, ρ, m⟩ ray tMin tMax rec).2.point ∧
        (Sphere.Hit ⟨c, -ρ, m'⟩ ray tMin tMax rec).2.normal =
          -(Sphere.Hit ⟨c, ρ, m⟩ ray tMin tMax rec).2.normal)) := by
  constructor
  · intro s ray tMin tMax rec
    simp only [Sphere.Hit]
    split_ifs with h1 h2 h3 <;> simp
  · intro c ρ m m' ray tMin tMax rec
    have hsq : -ρ * -ρ = ρ * ρ := by ring
    simp only [Sphere.Hit, hsq]
    split_ifs with h1 h2 h3 <;>
      simp [Vec3.divS_def, Vec3.neg_def, div_neg]

/-- C10: the aggregate hit test on the empty list reports no hit and returns
the caller's record untouched, and consequently the legacy integrator
returns exactly the sky gradient for every ray and depth in a scene whose
aggregate list is empty. -/
theorem empty_list_miss_sky :
    (∀ (ray : Ray) (tMin tMax : ℝ) (rec temp0 : HitRecord),
      HittableList.Hit [] ray tMin tMax rec temp0 = (false, rec)) ∧
    (∀ (rv : ℕ → Vec3) (ru : ℕ → ℝ) (ray : Ray) (depth : ℕ),
      Color [] rv ru ray depth = skyColor ray) := by
  refine ⟨fun ray tMin tMax rec temp0 => rfl, fun rv ru ray depth => ?_⟩
  rw [Color]
  simp [HittableList.Hit, listHitGo]

lemma sphere0_b_eval : sphereB sphere0 ray0 = -2 := by
  simp only [sphereB, Dot, sphere0, ray0, Vec3.sub_def]
  norm_num

lemma sphere0_a_eval : sphereA ray0 = 1 := by
  simp only [sphereA, Dot, ray0]
  norm_num

lemma sphere0_disc_eval : sphereDisc sphere0 ray0 = 1 := by
  have hc : sphereC sphere0 ray0 = 3 := by
    simp only [sphereC, Dot, sphere0, ray0, Vec3.sub_def]
    norm_num
  rw [sphereDisc, sphere0_b_eval, sphere0_a_eval, hc]
  norm_num

lemma sphere0_t1_eval : sphereT1 sphere0 ray0 = 1 := by
  rw [sphereT1, sphere0_b_eval, sphere0_a_eval, sphere0_disc_eval, Real.sqrt_one]
  norm_num

/-- Full evaluation of the hit test on the concrete sphere and ray. -/
lemma sphere0_hit_eval :
    Sphere.Hit sphere0 ray0 0.001 1000 hitRecord0 =
      (true, ⟨1, ⟨0, 0, 1⟩, ⟨0, 0, -1⟩, .lambertian ⟨0, 0, 0⟩⟩) := by
  rw [Sphere.Hit_eq, if_pos (by rw [sphere0_disc_eval]; norm_num),
    if_pos (by rw [sphere0_t1_eval]; norm_num), sphere0_t1_eval]
  simp only [sphereRecAt, Ray.PointAtParamenter, ray0, sphere0,
    Vec3.add_def, Vec3.smul_def, Vec3.sub_def, Vec3.divS_def, Prod.mk.injEq,
    HitRecord.mk.injEq, Vec3.mk.injEq]
  norm_num

/-- C1 witness: on the concrete sphere and ray with window `(0.001, 1000)`
the code result coincides with the specification's root rule and equals the
nearer root `t = 1`. -/
theorem sphere_hit_root_selection_witness :
    sphereHitT sphere0 ray0 0.001 1000 = sphereHitSpecRoot sphere0 ray0 0.001 1000 ∧
    sphereHitT sphere0 ray0 0.001 1000 = some 1 := by
  refine ⟨(sphere_hit_root_selection sphere0 ray0 0.001 1000 (by norm_num)).1, ?_⟩
  unfold sphereHitT
  rw [sphere0_hit_eval]
  rfl

/-- C3 witness: on the concrete hit at point `(0,0,1)` the positive-radius
sphere yields the outward normal and the negated-radius sphere the exactly
negated one. -/
theorem sphere_hit_normal_negation_witness :
    (Sphere.Hit sphere0 ray0 0.001 1000 hitRecord0).2.normal =
      ((Sphere.Hit sphere0 ray0 0.001 1000 hitRecord0).2.point - sphere0.center)
        / sphere0.radius ∧
    (Sphere.Hit sphere0neg ray0 0.001 1000 hitRecord0).2.normal =
      -(Sphere.Hit sphere0 ray0 0.001 1000 hitRecord0).2.normal := by
  have hflag : (Sphere.Hit sphere0 ray0 0.001 1000 hitRecord0).1 = true := by
    rw [sphere0_hit_eval]
  exact ⟨sphere_hit_normal_negation.1 sphere0 ray0 0.001 1000 hitRecord0 hflag,
    ((sphere_hit_normal_negation.2 ⟨0, 0, 2⟩ 1 (.lambertian ⟨0, 0, 0⟩)
      (.lambertian ⟨0, 0, 0⟩) ray0 0.001 1000 hitRecord0).2 hflag).2.2⟩

lemma sphere0_hitT_eval : sphereHitT sphere0 ray0 0.001 1000 = some 1 := by
  unfold sphereHitT
  rw [sphere0_hit_eval]
  rfl

lemma sphereFar_b_eval : sphereB sphereFar ray0 = -5 := by
  simp only [sphereB, Dot, sphereFar, ray0, Vec3.sub_def]
  norm_num

lemma sphereFar_disc_eval : sphereDisc sphereFar ray0 = 1 := by
  have hc : sphereC sphereFar ray0 = 24 := by
    simp only [sphereC, Dot, sphereFar, ray0, Vec3.sub_def]
    norm_num
  rw [sphereDisc, sphereFar_b_eval, sphere0_a_eval, hc]
  norm_num

lemma sphereFar_t1_eval : sphereT1 sphereFar ray0 = 4 := by
  rw [sphereT1, sphereFar_b_eval, sphere0_a_eval, sphereFar_disc_eval,
    Real.sqrt_one]
  norm_num

lemma sphereFar_hit_eval :
    Sphere.Hit sphereFar ray0 0.001 1000 hitRecord0 =
      (true, sphereRecAt sphereFar ray0 4) := by
  rw [Sphere.Hit_eq, if_pos (by rw [sphereFar_disc_eval]; norm_num),
    if_pos (by rw [sphereFar_t1_eval]; norm_num), sphereFar_t1_eval]

lemma sphereFar_hitT_eval : sphereHitT sphereFar ray0 0.001 1000 = some 4 := by
  unfold sphereHitT
  rw [sphereFar_hit_eval]
  rfl

/-- C2: the aggregate list hit returns exactly the `minO` fold of its
members' full-window results (the progressive narrowing is lossless), the
parametric result is invariant under permuting the member list, and a
returned parameter is attained by some member and bounds every member's
result from below. -/
theorem aggregate_nearest_hit :
    (∀ (l : List Sphere) (ray : Ray) (tMin tMax : ℝ) (rec temp0 : HitRecord),
      hitResultT (HittableList.Hit l ray tMin tMax rec temp0) =
        l.foldr (fun s acc => minO (sphereHitT s ray tMin tMax) acc) none) ∧
    (∀ (l l' : List Sphere) (ray : Ray) (tMin tMax : ℝ)
      (rec rec' temp0 temp0' : HitRecord), l.Perm l' →
      hitResultT (HittableList.Hit l ray tMin tMax rec temp0) =
        hitResultT (HittableList.Hit l' ray tMin tMax rec' temp0')) ∧
    (∀ (l : List Sphere) (ray : Ray) (tMin tMax : ℝ) (rec temp0 : HitRecord)
      (u : ℝ),
      hitResultT (HittableList.Hit l ray tMin tMax rec temp0) = some u →
      (∃ s ∈ l, sphereHitT s ray tMin tMax = some u) ∧
      ∀ s ∈ l, ∀ v, sphereHitT s ray tMin tMax = some v → u ≤ v) := by
  refine ⟨hittableList_resT, ?_, ?_⟩
  · intro l l' ray tMin tMax rec rec' temp0 temp0' hperm
    rw [hittableList_resT, hittableList_resT]
    haveI : LeftCommutative
        (fun (s : Sphere) (acc : Option ℝ) => minO (sphereHitT s ray tMin tMax) acc) :=
      ⟨fun a b c => minO_left_comm _ _ _⟩
    exact hperm.foldr_eq none
  · intro l ray tMin tMax rec temp0 u hu
    rw [hittableList_resT] at hu
    exact foldr_minO_some _ l u hu

/-- C2 witness: with the far sphere listed first (reverse distance order) the
aggregate still reports the nearer parameter 1, identically to the other
order, and the near sphere attains it. -/
theorem aggregate_nearest_hit_witness :
    hitResultT (HittableList.Hit [sphereFar, sphere0] ray0 0.001 1000
        hitRecord0 hitRecord0) =
      hitResultT (HittableList.Hit [sphere0, sphereFar] ray0 0.001 1000
        hitRecord0 hitRecord0) ∧
    (∃ s ∈ [sphereFar, sphere0], sphereHitT s ray0 0.001 1000 = some 1) := by
  have hres : hitResultT (HittableList.Hit [sphereFar, sphere0] ray0 0.001 1000
      hitRecord0 hitRecord0) = some 1 := by
    rw [hittableList_resT]
    simp only [List.foldr_cons, List.foldr_nil, sphere0_hitT_eval,
      sphereFar_hitT_eval, minO]
    norm_num
  constructor
  · exact aggregate_nearest_hit.2.1 [sphereFar, sphere0] [sphere0, sphereFar]
      ray0 0.001 1000 hitRecord0 hitRecord0 hitRecord0 hitRecord0
      (List.Perm.swap sphere0 sphereFar [])
  · exact (aggregate_nearest_hit.2.2 [sphereFar, sphere0] ray0 0.001 1000
      hitRecord0 hitRecord0 1 hres).1

lemma skyColor_rayUp_eval : skyColor rayUp = ⟨0.5, 0.7, 1⟩ := by
  have hlen : (⟨0, 1, 0⟩ : Vec3).Length = 1 := by
    simp only [Vec3.Length]
    norm_num
  simp only [skyColor, Unit_Vector, rayUp, hlen, Vec3.divS_def, Vec3.smul_def,
    Vec3.add_def]
  norm_num

lemma sphere0_hit_fltmax :
    Sphere.Hit sphere0 ray0 0.001 FLT_MAX hitRecord0 =
      (true, sphereRecAt sphere0 ray0 1) := by
  rw [Sphere.Hit_eq, if_pos (by rw [sphere0_disc_eval]; norm_num),
    if_pos (by rw [sphere0_t1_eval]; norm_num [FLT_MAX]), sphere0_t1_eval]

/-- C6 counterexample: at the depth limit, `ColorOptimized` returns black
even for a ray that hits nothing, which differs from the sky gradient the
claim requires for every missing ray. -/
theorem integrator_sky_counterexample :
    (HittableList.Hit [] rayUp 0.001 FLT_MAX hitRecord0 hitRecord0).1 = false ∧
    ColorOptimized [] rv0 rayUp 6 6 = ⟨0, 0, 0⟩ ∧
    skyColor rayUp = ⟨0.5, 0.7, 1⟩ ∧
    ColorOptimized [] rv0 rayUp 6 6 ≠ skyColor rayUp := by
  have hblack : ColorOptimized [] rv0 rayUp 6 6 = ⟨0, 0, 0⟩ := by
    rw [ColorOptimized]
    simp
  refine ⟨rfl, hblack, skyColor_rayUp_eval, ?_⟩
  rw [hblack, skyColor_rayUp_eval]
  intro hc
  injection hc with h1 h2 h3
  norm_num at h1

/-- C6 amended: the depth-first check of `ColorOptimized` returns black
whenever `depth >= max_depth` (even on a miss); below the limit a miss
returns the sky gradient.  The legacy `Color` checks the hit first: a miss
returns the sky gradient at every depth, and a hit at depth at least 50
returns black. -/
theorem integrator_terminals :
    (∀ (world : List Sphere) (rv : ℕ → Vec3) (ray : Ray) (maxDepth depth : ℕ),
      maxDepth ≤ depth → ColorOptimized world rv ray depth maxDepth = ⟨0, 0, 0⟩) ∧
    (∀ (world : List Sphere) (rv : ℕ → Vec3) (ray : Ray) (maxDepth depth : ℕ),
      depth < maxDepth →
      (HittableList.Hit world ray 0.001 FLT_MAX hitRecord0 hitRecord0).1 = false →
      ColorOptimized world rv ray depth maxDepth = skyColor ray) ∧
    (∀ (world : List Sphere) (rv : ℕ → Vec3) (ru : ℕ → ℝ) (ray : Ray) (depth : ℕ),
      (HittableList.Hit world ray 0.001 FLT_MAX hitRecord0 hitRecord0).1 = false →
      Color world rv ru ray depth = skyColor ray) ∧
    (∀ (world : List Sphere) (rv : ℕ → Vec3) (ru : ℕ → ℝ) (ray : Ray) (depth : ℕ),
      50 ≤ depth →
      (HittableList.Hit world ray 0.001 FLT_MAX hitRecord0 hitRecord0).1 = true →
      Color world rv ru ray depth = ⟨0, 0, 0⟩) := by
  refine ⟨?_, ?_, ?_, ?_⟩
  · intro world rv ray maxDepth depth h
    rw [ColorOptimized, if_pos h]
  · intro world rv ray maxDepth depth h hmiss
    rw [ColorOptimized, if_neg (not_le.mpr h)]
    simp [hmiss]
  · intro world rv ru ray depth hmiss
    rw [Color]
    simp [hmiss]
  · intro world rv ru ray depth h hhit
    rw [Color]
    simp [hhit, Nat.not_lt.mpr h]

/-- C6 witness: concrete instances of all four amended terminal behaviours. -/
theorem integrator_terminals_witness :
    ColorOptimized [] rv0 rayUp 6 6 = ⟨0, 0, 0⟩ ∧
    ColorOptimized [] rv0 rayUp 0 6 = skyColor rayUp ∧
    Color [] rv0 ru0 rayUp 0 = skyColor rayUp ∧
    Color [sphere0] rv0 ru0 ray0 50 = ⟨0, 0, 0⟩ := by
  have hhit : (HittableList.Hit [sphere0] ray0 0.001 FLT_MAX
      hitRecord0 hitRecord0).1 = true := by
    simp [HittableList.Hit, listHitGo, sphere0_hit_fltmax]
  exact ⟨integrator_terminals.1 [] rv0 rayUp 6 6 (le_refl 6),
    integrator_terminals.2.1 [] rv0 rayUp 6 0 (by norm_num) rfl,
    integrator_terminals.2.2.1 [] rv0 ru0 rayUp 0 rfl,
    integrator_terminals.2.2.2 [sphere0] rv0 ru0 ray0 50 (le_refl 50) hhit⟩

/-- Every loop index produced by `startsFrom` lies in `[s, bound)`. -/
lemma startsFrom_mem_bounds (ts bound : ℕ) :
    ∀ s q, q ∈ startsFrom ts bound s → s ≤ q ∧ q < bound := by
  have H : ∀ n s q, bound - s ≤ n → q ∈ startsFrom ts bound s →
      s ≤ q ∧ q < bound := by
    intro n
    induction n with
    | zero =>
      intro s q hle hq
      rw [startsFrom, dif_neg (by omega : ¬(s < bound ∧ 0 < ts))] at hq
      exact absurd hq (List.not_mem_nil q)
    | succ n ih =>
      intro s q hle hq
      rw [startsFrom] at hq
      by_cases hc : s < bound ∧ 0 < ts
      · rw [dif_pos hc] at hq
        rcases List.mem_cons.mp hq with rfl | hq'
        · exact ⟨le_refl q, hc.1⟩
        · have h2 := ih (s + ts) q (by omega) hq'
          exact ⟨by omega, h2.2⟩
      · rw [dif_neg hc] at hq
        exact absurd hq (List.not_mem_nil q)
  intro s q hq
  exact H bound s q (by omega) hq

/-- Exactly one loop index of `startsFrom` owns the clipped window containing
a given coordinate `p` below the bound. -/
lemma startsFrom_window_count (ts bound p : ℕ) (hts : 0 < ts) (hp : p < bound) :
    ∀ s, s ≤ p →
      (startsFrom ts bound s).countP
        (fun q => decide (q ≤ p ∧ p < q + min ts (bound - q))) = 1 := by
  have H : ∀ n s, bound - s ≤ n → s ≤ p →
      (startsFrom ts bound s).countP
        (fun q => decide (q ≤ p ∧ p < q + min ts (bound - q))) = 1 := by
    intro n
    induction n with
    | zero =>
      intro s hle hsp
      exact absurd hp (by omega)
    | succ n ih =>
      intro s hle hsp
      rw [startsFrom, dif_pos ⟨by omega, hts⟩, List.countP_cons]
      by_cases hcase : p < s + ts
      · have hhead : decide (s ≤ p ∧ p < s + min ts (bound - s)) = true := by
          rw [decide_eq_true_eq]
          omega
        have htail : (startsFrom ts bound (s + ts)).countP
            (fun q => decide (q ≤ p ∧ p < q + min ts (bound - q))) = 0 := by
          rw [List.countP_eq_zero]
          intro q hq
          have hb := startsFrom_mem_bounds ts bound (s + ts) q hq
          simp only [decide_eq_true_eq]
          omega
        rw [hhead, htail]
        simp
      · have hhead : decide (s ≤ p ∧ p < s + min ts (bound - s)) = false := by
          rw [decide_eq_false_iff_not]
          omega
        rw [hhead, ih (s + ts) (by omega) (by omega)]
        simp
  intro s hsp
  exact H bound s (by omega) hsp

/-- Summing the indicator of a decidable predicate over a list counts it. -/
lemma sum_map_ite_eq_countP (Q : ℕ → Prop) [DecidablePred Q] :
    ∀ l : List ℕ,
      (l.map fun y => if Q y then 1 else 0).sum = l.countP fun y => decide (Q y)
  | [] => rfl
  | y :: l => by
    simp only [List.map_cons, List.sum_cons, List.countP_cons,
      sum_map_ite_eq_countP Q l]
    by_cases hQ : Q y
    · simp [hQ, Nat.add_comm]
    · simp [hQ]

/-- C4: the tiles of `create_tiles` all carry the requested sample count,
cover each image pixel exactly once (so they are pairwise non-overlapping on
the image), and never extend beyond the image bounds — including when the
image size is not divisible by the (positive) tile size. -/
theorem tiles_partition (w h samples ts : ℕ) (hts : 0 < ts) :
    (∀ t ∈ create_tiles w h samples ts, t.samples_per_pixel = samples) ∧
    (∀ px py, px < w → py < h →
      (create_tiles w h samples ts).countP (fun t => tileContains t px py) = 1) ∧
    (∀ t ∈ create_tiles w h samples ts, ∀ px py,
      tileContains t px py = true → px < w ∧ py < h) := by
  refine ⟨?_, ?_, ?_⟩
  · intro t ht
    obtain ⟨y, hy, ht'⟩ := List.mem_flatMap.mp ht
    obtain ⟨x, hx, rfl⟩ := List.mem_map.mp ht'
    rfl
  · intro px py hpx hpy
    unfold create_tiles
    rw [List.countP_flatMap]
    have hinner : ∀ y ∈ startsFrom ts h 0,
        ((List.countP (fun t => tileContains t px py)) ∘
          fun y => (startsFrom ts w 0).map
            fun x => RenderTile.mk x y (min ts (w - x)) (min ts (h - y)) samples) y =
        if y ≤ py ∧ py < y + min ts (h - y) then 1 else 0 := by
      intro y hy
      simp only [Function.comp_apply]
      rw [List.countP_map]
      by_cases hq : y ≤ py ∧ py < y + min ts (h - y)
      · rw [if_pos hq]
        rw [List.countP_congr ?_]
        · exact startsFrom_window_count ts w px hts hpx 0 (Nat.zero_le px)
        · intro x hx
          simp only [Function.comp_apply, tileContains, decide_eq_true_eq]
          constructor
          · intro hc
            exact ⟨hc.1, hc.2.1⟩
          · intro hc
            exact ⟨hc.1, hc.2, hq.1, hq.2⟩
      · rw [if_neg hq, List.countP_eq_zero]
        intro x hx
        simp only [Function.comp_apply, tileContains, decide_eq_true_eq]
        intro hc
        exact hq ⟨hc.2.2.1, hc.2.2.2⟩
    rw [List.map_congr_left hinner,
      sum_map_ite_eq_countP (fun y => y ≤ py ∧ py < y + min ts (h - y))
        (startsFrom ts h 0)]
    exact startsFrom_window_count ts h py hts hpy 0 (Nat.zero_le py)
  · intro t ht px py hc
    obtain ⟨y, hy, ht'⟩ := List.mem_flatMap.mp ht
    obtain ⟨x, hx, rfl⟩ := List.mem_map.mp ht'
    have hxb := startsFrom_mem_bounds ts w 0 x hx
    have hyb := startsFrom_mem_bounds ts h 0 y hy
    simp only [tileContains, decide_eq_true_eq] at hc
    omega

/-- C4 witness: a 5-by-3 image with tile size 2 and 7 samples per pixel —
pixel `(4, 2)` sits in a doubly clipped corner tile and is covered exactly
once, and every tile carries 7 samples. -/
theorem tiles_partition_witness :
    (∀ t ∈ create_tiles 5 3 7 2, t.samples_per_pixel = 7) ∧
    (create_tiles 5 3 7 2).countP (fun t => tileContains t 4 2) = 1 := by
  have h := tiles_partition 5 3 7 2 (by norm_num)
  exact ⟨h.1, h.2.1 4 2 (by norm_num) (by norm_num)⟩

/-- A buffer position written by none of the listed pixels is unchanged. -/
lemma writeAll_eq_of_not_mem (nx : ℕ) (pixelVal : ℕ → ℕ → Vec3) :
    ∀ (l : List (ℕ × ℕ)) (buf : ℕ → Vec3) (q : ℕ),
      (∀ c ∈ l, c.2 * nx + c.1 ≠ q) →
      writeAll nx pixelVal buf l q = buf q
  | [], _, _, _ => rfl
  | c :: l, buf, q, hq => by
    rw [writeAll,
      writeAll_eq_of_not_mem nx pixelVal l _ q
        (fun d hd => hq d (List.mem_cons_of_mem c hd))]
    exact Function.update_noteq (Ne.symm (hq c (List.mem_cons_self c l))) _ _

/-- When the write positions are pairwise distinct, a listed pixel's buffer
position ends up holding exactly that pixel's value. -/
lemma writeAll_eq_of_mem (nx : ℕ) (pixelVal : ℕ → ℕ → Vec3) :
    ∀ (l : List (ℕ × ℕ)) (buf : ℕ → Vec3) (c : ℕ × ℕ),
      c ∈ l → (l.map fun d => d.2 * nx + d.1).Nodup →
      writeAll nx pixelVal buf l (c.2 * nx + c.1) = pixelVal c.1 c.2
  | [], _, c, hc, _ => absurd hc (List.not_mem_nil c)
  | d :: l, buf, c, hc, hnd => by
    rw [writeAll]
    rcases List.mem_cons.mp hc with rfl | hc'
    · have hni := (List.nodup_cons.mp hnd).1
      have hnomem : ∀ e ∈ l, e.2 * nx + e.1 ≠ c.2 * nx + c.1 := by
        intro e he heq
        exact hni (by
          simpa [heq] using List.mem_map_of_mem (fun d => d.2 * nx + d.1) he)
      rw [writeAll_eq_of_not_mem nx pixelVal l _ _ hnomem]
      exact Function.update_same _ _ _
    · exact writeAll_eq_of_mem nx pixelVal l _ c hc' (List.nodup_cons.mp hnd).2

/-- Every coordinate produced by the row-major tile traversal lies inside the
tile's rectangle. -/
lemma tileCoords_mem (x0 w : ℕ) :
    ∀ (h y0 : ℕ) (c : ℕ × ℕ), c ∈ tileCoords x0 y0 w h →
      x0 ≤ c.1 ∧ c.1 < x0 + w ∧ y0 ≤ c.2 ∧ c.2 < y0 + h
  | 0, y0, c, hc => absurd hc (List.not_mem_nil c)
  | h + 1, y0, c, hc => by
    rw [tileCoords] at hc
    rcases List.mem_append.mp hc with hrow | hrest
    · obtain ⟨dx, hdx, rfl⟩ := List.mem_map.mp hrow
      have hdx' := List.mem_range.mp hdx
      refine ⟨by omega, by omega, by omega, by omega⟩
    · have hrec := tileCoords_mem x0 w h (y0 + 1) c hrest
      exact ⟨hrec.1, hrec.2.1, by omega, by omega⟩

/-- When the tile fits horizontally inside the image, the row-major buffer
positions of its pixels are pairwise distinct. -/
lemma tileCoords_loc_nodup (nx x0 w : ℕ) (hfit : x0 + w ≤ nx) :
    ∀ (h y0 : ℕ),
      ((tileCoords x0 y0 w h).map fun c => c.2 * nx + c.1).Nodup
  | 0, _ => List.nodup_nil
  | h + 1, y0 => by
    rw [tileCoords, List.map_append, List.nodup_append]
    refine ⟨?_, tileCoords_loc_nodup nx x0 w hfit h (y0 + 1), ?_⟩
    · rw [List.map_map]
      refine List.Nodup.map ?_ (List.nodup_range w)
      intro a b hab
      simp only [Function.comp_apply] at hab
      omega
    · intro q hq1 hq2
      obtain ⟨c, hcrow, hqc⟩ := List.mem_map.mp hq1
      obtain ⟨dx, hdx, rfl⟩ := List.mem_map.mp hcrow
      have hdx' := List.mem_range.mp hdx
      obtain ⟨c', hc', hqc'⟩ := List.mem_map.mp hq2
      have hb := tileCoords_mem x0 w h (y0 + 1) c' hc'
      have hq1' : y0 * nx + (x0 + dx) = q := by simpa using hqc
      have hq2' : c'.2 * nx + c'.1 = q := by simpa using hqc'
      have hcmul : (y0 + 1) * nx ≤ c'.2 * nx :=
        Nat.mul_le_mul_right nx (by omega)
      have hexp : (y0 + 1) * nx = y0 * nx + nx := by ring
      omega

/-- Up to the first observed stop, the progressive tile loop is exactly the
sequential write of the already-visited prefix: the pixel at which the stop
is observed and all later ones are never written. -/
lemma progressiveGo_eq_writeAll (nx : ℕ) (stopObs : ℕ → Bool)
    (pixelVal : ℕ → ℕ → Vec3) (K : ℕ)
    (hK : ∀ j, j < K → stopObs j = false) (hs : stopObs K = true) :
    ∀ (coords : List (ℕ × ℕ)) (k : ℕ) (buf : ℕ → Vec3), k ≤ K →
      progressiveGo nx stopObs pixelVal coords k buf =
        writeAll nx pixelVal buf (coords.take (K - k))
  | [], k, buf, _ => by
    rw [List.take_nil]
    funext q
    rfl
  | c :: rest, k, buf, hk => by
    by_cases hkK : k = K
    · subst hkK
      simp only [progressiveGo, hs, if_true, Nat.sub_self, List.take_zero]
      funext q
      rfl
    · have hklt : k < K := lt_of_le_of_ne hk hkK
      simp only [progressiveGo, hK k hklt, Bool.false_eq_true, if_false]
      rw [progressiveGo_eq_writeAll nx stopObs pixelVal K hK hs rest (k + 1) _
        (by omega)]
      have hsub : K - k = (K - (k + 1)) + 1 := by omega
      rw [hsub, List.take_succ_cons]
      rfl

/-- C5: if the stop flag is observed clear at the first `K` per-pixel checks
of a tile and set at check `K`, the progressive tile renderer leaves the
pixel it stopped at and every later pixel of the tile with their previous
buffer values, while the `K` pixels visited before the stop hold the values
written for them. -/
theorem render_tile_progressive_stop (tile : RenderTile) (nx : ℕ)
    (stopObs : ℕ → Bool) (pixelVal : ℕ → ℕ → Vec3) (buf : ℕ → Vec3) (K : ℕ)
    (hK : ∀ j, j < K → stopObs j = false) (hs : stopObs K = true)
    (hfit : tile.x_start + tile.width ≤ nx) :
    (∀ m (hm : m <
        (tileCoords tile.x_start tile.y_start tile.width tile.height).length),
      K ≤ m →
      render_tile_progressive tile nx stopObs pixelVal buf
        (((tileCoords tile.x_start tile.y_start tile.width tile.height).get
            ⟨m, hm⟩).2 * nx +
         ((tileCoords tile.x_start tile.y_start tile.width tile.height).get
            ⟨m, hm⟩).1) =
      buf (((tileCoords tile.x_start tile.y_start tile.width tile.height).get
            ⟨m, hm⟩).2 * nx +
           ((tileCoords tile.x_start tile.y_start tile.width tile.height).get
            ⟨m, hm⟩).1)) ∧
    (∀ m (hm : m <
        (tileCoords tile.x_start tile.y_start tile.width tile.height).length),
      m < K →
      render_tile_progressive tile nx stopObs pixelVal buf
        (((tileCoords tile.x_start tile.y_start tile.width tile.height).get
            ⟨m, hm⟩).2 * nx +
         ((tileCoords tile.x_start tile.y_start tile.width tile.height).get
            ⟨m, hm⟩).1) =
      pixelVal
        ((tileCoords tile.x_start tile.y_start tile.width tile.height).get
          ⟨m, hm⟩).1
        ((tileCoords tile.x_start tile.y_start tile.width tile.height).get
          ⟨m, hm⟩).2) := by
  have hgo : render_tile_progressive tile nx stopObs pixelVal buf =
      writeAll nx pixelVal buf
        ((tileCoords tile.x_start tile.y_start tile.width tile.height).take K) := by
    unfold render_tile_progressive
    rw [progressiveGo_eq_writeAll nx stopObs pixelVal K hK hs _ 0 buf
      (Nat.zero_le K), Nat.sub_zero]
  have hnd := tileCoords_loc_nodup nx tile.x_start tile.width hfit
    tile.height tile.y_start
  constructor
  · intro m hm hKm
    rw [hgo]
    apply writeAll_eq_of_not_mem
    intro c hc heq
    obtain ⟨⟨i, hi⟩, hci⟩ := List.mem_iff_get.mp hc
    have hlen := List.length_take K
      (tileCoords tile.x_start tile.y_start tile.width tile.height)
    have hiK : i < K := by rw [hlen] at hi; omega
    have hiL : i <
        (tileCoords tile.x_start tile.y_start tile.width tile.height).length := by
      rw [hlen] at hi; omega
    have hgetc :
        (tileCoords tile.x_start tile.y_start tile.width tile.height).get
          ⟨i, hiL⟩ = c := by
      rw [← hci]
      simp [List.get_eq_getElem, List.getElem_take]
    have hmapeq :
        (((tileCoords tile.x_start tile.y_start tile.width tile.height).map
            fun d => d.2 * nx + d.1).get ⟨i, by simpa using hiL⟩) =
        (((tileCoords tile.x_start tile.y_start tile.width tile.height).map
            fun d => d.2 * nx + d.1).get ⟨m, by simpa using hm⟩) := by
      simp only [List.get_eq_getElem, List.getElem_map]
      rw [show (tileCoords tile.x_start tile.y_start tile.width
          tile.height)[i] =
        (tileCoords tile.x_start tile.y_start tile.width tile.height).get
          ⟨i, hiL⟩ from rfl, hgetc]
      rw [show (tileCoords tile.x_start tile.y_start tile.width
          tile.height)[m] =
        (tileCoords tile.x_start tile.y_start tile.width tile.height).get
          ⟨m, hm⟩ from rfl]
      exact heq
    have hij := (List.Nodup.get_inj_iff hnd).mp hmapeq
    have : i = m := by simpa using hij
    omega
  · intro m hm hmK
    rw [hgo]
    have hmtake : m <
        ((tileCoords tile.x_start tile.y_start tile.width tile.height).take
          K).length := by
      rw [List.length_take]
      omega
    have hmem :
        (tileCoords tile.x_start tile.y_start tile.width tile.height).get
          ⟨m, hm⟩ ∈
        (tileCoords tile.x_start tile.y_start tile.width tile.height).take K := by
      have hg : ((tileCoords tile.x_start tile.y_start tile.width
          tile.height).take K).get ⟨m, hmtake⟩ =
          (tileCoords tile.x_start tile.y_start tile.width tile.height).get
            ⟨m, hm⟩ := by
        simp [List.get_eq_getElem, List.getElem_take]
      rw [← hg]
      exact List.get_mem _ _ _
    apply writeAll_eq_of_mem _ _ _ _ _ hmem
    rw [List.map_take]
    exact List.Nodup.sublist (List.take_sublist K _) hnd

/-- C5 witness: a 2-by-2 tile at `(1,1)` of a width-4 image, with the stop
flag observed set at the second per-pixel check: the first pixel `(1,1)`
(buffer index 5) holds the written value while pixel `(1,2)` (buffer index
9, visited after the stop) keeps its previous zero value. -/
theorem render_tile_progressive_stop_witness :
    render_tile_progressive ⟨1, 1, 2, 2, 5⟩ 4 (fun k => decide (1 ≤ k))
        (fun _ _ => ⟨2, 3, 4⟩) (fun _ => ⟨0, 0, 0⟩) 5 = ⟨2, 3, 4⟩ ∧
    render_tile_progressive ⟨1, 1, 2, 2, 5⟩ 4 (fun k => decide (1 ≤ k))
        (fun _ _ => ⟨2, 3, 4⟩) (fun _ => ⟨0, 0, 0⟩) 9 = ⟨0, 0, 0⟩ := by
  have hK : ∀ j, j < 1 → (fun k => decide (1 ≤ k)) j = false := by
    intro j hj
    have hj0 : j = 0 := by omega
    subst hj0
    rfl
  have h := render_tile_progressive_stop ⟨1, 1, 2, 2, 5⟩ 4
    (fun k => decide (1 ≤ k)) (fun _ _ => ⟨2, 3, 4⟩) (fun _ => ⟨0, 0, 0⟩) 1
    hK rfl (by norm_num)
  exact ⟨h.2 0 (by decide) (by decide), h.1 2 (by decide) (by decide)⟩

/-- The accumulated sample sum, componentwise, as a `Finset` sum. -/
lemma accumSamples_components (f : ℕ → Vec3) :
    ∀ n, (accumSamples f n).x = ∑ s ∈ Finset.range n, (f s).x ∧
      (accumSamples f n).y = ∑ s ∈ Finset.range n, (f s).y ∧
      (accumSamples f n).z = ∑ s ∈ Finset.range n, (f s).z
  | 0 => by simp [accumSamples]
  | n + 1 => by
    have ih := accumSamples_components f n
    simp [accumSamples, Vec3.add_def, Finset.sum_range_succ, ih.1, ih.2.1, ih.2.2]

/-- The y component of a normalized vector lies in `[-1, 1]` (also for the
zero vector, whose normalization is the zero vector). -/
lemma unit_vector_y_bounds (v : Vec3) :
    -1 ≤ (Unit_Vector v).y ∧ (Unit_Vector v).y ≤ 1 := by
  unfold Unit_Vector
  rw [Vec3.divS_def]
  simp only
  have hL0 : 0 ≤ v.Length := Real.sqrt_nonneg _
  rcases eq_or_lt_of_le hL0 with h0 | hpos
  · rw [← h0]
    norm_num
  · have hnn : 0 ≤ v.x * v.x + v.y * v.y + v.z * v.z := by
      nlinarith [mul_self_nonneg v.x, mul_self_nonneg v.y, mul_self_nonneg v.z]
    have hy2 : v.y * v.y ≤ v.Length * v.Length := by
      rw [Vec3.Length, Real.mul_self_sqrt hnn]
      nlinarith [mul_self_nonneg v.x, mul_self_nonneg v.z]
    constructor
    · rw [le_div_iff₀ hpos]
      nlinarith [sq_nonneg (v.y + v.Length)]
    · rw [div_le_one hpos]
      nlinarith [sq_nonneg (v.y - v.Length)]

/-- The sky gradient always lies in the unit color cube. -/
lemma skyColor_inRange (ray : Ray) : inRange01 (skyColor ray) := by
  obtain ⟨h1, h2⟩ := unit_vector_y_bounds ray.direction
  unfold skyColor inRange01
  simp only [Vec3.smul_def, Vec3.add_def]
  refine ⟨by nlinarith, by nlinarith, by nlinarith, by nlinarith,
    by nlinarith, by nlinarith⟩

/-- Halving a unit-cube color keeps it in the unit cube. -/
lemma half_smul_inRange (v : Vec3) (h : inRange01 v) :
    inRange01 ((0.5 : ℝ) • v) := by
  obtain ⟨ha, hb, hc, hd, he, hf⟩ := h
  unfold inRange01
  rw [Vec3.smul_def]
  refine ⟨by nlinarith, by nlinarith, by nlinarith, by nlinarith,
    by nlinarith, by nlinarith⟩

/-- The optimized integrator's radiance estimate always lies in the unit
color cube: black and the sky gradient do, and each bounce halves. -/
lemma colorOptimized_inRange (world : List Sphere) (rv : ℕ → Vec3)
    (ray : Ray) (depth maxDepth : ℕ) :
    inRange01 (ColorOptimized world rv ray depth maxDepth) := by
  have H : ∀ (n : ℕ) (ray : Ray) (depth : ℕ), maxDepth - depth ≤ n →
      inRange01 (ColorOptimized world rv ray depth maxDepth) := by
    intro n
    induction n with
    | zero =>
      intro ray depth hle
      rw [ColorOptimized, if_pos (by omega)]
      exact ⟨le_refl 0, by norm_num, le_refl 0, by norm_num, le_refl 0, by norm_num⟩
    | succ n ih =>
      intro ray depth hle
      rw [ColorOptimized]
      by_cases hd : depth ≥ maxDepth
      · rw [if_pos hd]
        exact ⟨le_refl 0, by norm_num, le_refl 0, by norm_num, le_refl 0, by norm_num⟩
      · rw [if_neg hd]
        by_cases hh :
            (HittableList.Hit world ray 0.001 FLT_MAX hitRecord0 hitRecord0).1 = true
        · simp only [hh, if_true]
          exact half_smul_inRange _ (ih _ (depth + 1) (by omega))
        · simp only [Bool.not_eq_true] at hh
          simp only [hh, Bool.false_eq_true, if_false]
          exact skyColor_inRange ray
  exact H (maxDepth - depth) ray depth (le_refl _)

/-- The average of `n` values from `[0, 1]` lies in `[0, 1]` (also for
`n = 0`, where the division by zero yields 0). -/
lemma avg_sum_mem (g : ℕ → ℝ) (n : ℕ) (hg : ∀ s, 0 ≤ g s ∧ g s ≤ 1) :
    0 ≤ (∑ s ∈ Finset.range n, g s) / n ∧
      (∑ s ∈ Finset.range n, g s) / n ≤ 1 := by
  have h0 : 0 ≤ ∑ s ∈ Finset.range n, g s :=
    Finset.sum_nonneg fun s _ => (hg s).1
  have h1 : (∑ s ∈ Finset.range n, g s) ≤ n := by
    calc (∑ s ∈ Finset.range n, g s) ≤ ∑ _s ∈ Finset.range n, (1 : ℝ) :=
          Finset.sum_le_sum fun s _ => (hg s).2
      _ = n := by simp
  rcases Nat.eq_zero_or_pos n with rfl | hn
  · simp
  · have hnR : (0 : ℝ) < n := Nat.cast_pos.mpr hn
    exact ⟨div_nonneg h0 (le_of_lt hnR), (div_le_one hnR).mpr h1⟩

/-- C7: the tile renderer stores at each of its pixels the gamma-corrected
(componentwise square root) average of that pixel's per-sample radiance
estimates, and every component of every stored value lies in `[0, 1]`. -/
theorem render_tile_gamma (world : List Sphere) (cam : Camera) (nx ny : ℕ)
    (jit : ℕ → ℕ → ℕ → ℝ × ℝ) (disk : ℕ → ℕ → ℕ → Vec3)
    (rv : ℕ → ℕ → ℕ → ℕ → Vec3) (maxDepth samples : ℕ) (tile : RenderTile)
    (buf : ℕ → Vec3) (hfit : tile.x_start + tile.width ≤ nx) :
    (∀ m (hm : m <
        (tileCoords tile.x_start tile.y_start tile.width tile.height).length),
      render_tile_optimized tile nx
        (fun i j => renderPixel world cam nx ny i j (jit i j) (disk i j)
          (rv i j) maxDepth samples) buf
        (((tileCoords tile.x_start tile.y_start tile.width tile.height).get
            ⟨m, hm⟩).2 * nx +
         ((tileCoords tile.x_start tile.y_start tile.width tile.height).get
            ⟨m, hm⟩).1) =
      renderPixel world cam nx ny
        ((tileCoords tile.x_start tile.y_start tile.width tile.height).get
          ⟨m, hm⟩).1
        ((tileCoords tile.x_start tile.y_start tile.width tile.height).get
          ⟨m, hm⟩).2
        (jit ((tileCoords tile.x_start tile.y_start tile.width
          tile.height).get ⟨m, hm⟩).1
          ((tileCoords tile.x_start tile.y_start tile.width tile.height).get
            ⟨m, hm⟩).2)
        (disk ((tileCoords tile.x_start tile.y_start tile.width
          tile.height).get ⟨m, hm⟩).1
          ((tileCoords tile.x_start tile.y_start tile.width tile.height).get
            ⟨m, hm⟩).2)
        (rv ((tileCoords tile.x_start tile.y_start tile.width
          tile.height).get ⟨m, hm⟩).1
          ((tileCoords tile.x_start tile.y_start tile.width tile.height).get
            ⟨m, hm⟩).2)
        maxDepth samples) ∧
    (∀ i j, renderPixel world cam nx ny i j (jit i j) (disk i j) (rv i j)
        maxDepth samples =
      gammaCorrect
        ⟨(∑ s ∈ Finset.range samples, (sampleRadiance world cam nx ny i j
            (jit i j) (disk i j) (rv i j) maxDepth s).x) / (samples : ℝ),
         (∑ s ∈ Finset.range samples, (sampleRadiance world cam nx ny i j
            (jit i j) (disk i j) (rv i j) maxDepth s).y) / (samples : ℝ),
         (∑ s ∈ Finset.range samples, (sampleRadiance world cam nx ny i j
            (jit i j) (disk i j) (rv i j) maxDepth s).z) / (samples : ℝ)⟩) ∧
    (∀ i j, inRange01 (renderPixel world cam nx ny i j (jit i j) (disk i j)
        (rv i j) maxDepth samples)) := by
  have hnd := tileCoords_loc_nodup nx tile.x_start tile.width hfit
    tile.height tile.y_start
  refine ⟨?_, ?_, ?_⟩
  · intro m hm
    unfold render_tile_optimized
    exact writeAll_eq_of_mem nx _ _ buf _ (List.get_mem _ _ _) hnd
  · intro i j
    have hacc := accumSamples_components
      (sampleRadiance world cam nx ny i j (jit i j) (disk i j) (rv i j) maxDepth)
      samples
    simp only [renderPixel]
    rw [Vec3.divS_def, hacc.1, hacc.2.1, hacc.2.2]
  · intro i j
    have hsamp : ∀ s, inRange01 (sampleRadiance world cam nx ny i j (jit i j)
        (disk i j) (rv i j) maxDepth s) := by
      intro s
      unfold sampleRadiance
      exact colorOptimized_inRange world _ _ 0 maxDepth
    have hx := avg_sum_mem (fun s => (sampleRadiance world cam nx ny i j
      (jit i j) (disk i j) (rv i j) maxDepth s).x) samples
      (fun s => ⟨(hsamp s).1, (hsamp s).2.1⟩)
    have hy := avg_sum_mem (fun s => (sampleRadiance world cam nx ny i j
      (jit i j) (disk i j) (rv i j) maxDepth s).y) samples
      (fun s => ⟨(hsamp s).2.2.1, (hsamp s).2.2.2.1⟩)
    have hz := avg_sum_mem (fun s => (sampleRadiance world cam nx ny i j
      (jit i j) (disk i j) (rv i j) maxDepth s).z) samples
      (fun s => ⟨(hsamp s).2.2.2.2.1, (hsamp s).2.2.2.2.2⟩)
    have hacc := accumSamples_components
      (sampleRadiance world cam nx ny i j (jit i j) (disk i j) (rv i j) maxDepth)
      samples
    simp only [renderPixel]
    rw [Vec3.divS_def]
    unfold gammaCorrect inRange01
    simp only [hacc.1, hacc.2.1, hacc.2.2]
    exact ⟨Real.sqrt_nonneg _, Real.sqrt_le_one.mpr hx.2,
      Real.sqrt_nonneg _, Real.sqrt_le_one.mpr hy.2,
      Real.sqrt_nonneg _, Real.sqrt_le_one.mpr hz.2⟩

/-- C7 witness: on a concrete 2-by-2 tile of a 4-by-3 image with the scene
empty and two samples per pixel, the buffer at pixel `(1,1)` holds that
pixel's gamma-corrected average, whose components are inside `[0, 1]`. -/
theorem render_tile_gamma_witness :
    render_tile_optimized ⟨1, 1, 2, 2, 2⟩ 4
        (fun i j => renderPixel [] cam0 4 3 i j (fun _ => (0, 0))
          (fun _ => ⟨0, 0, 0⟩) (fun _ _ => ⟨0, 0, 0⟩) 6 2)
        (fun _ => ⟨0, 0, 0⟩) 5 =
      renderPixel [] cam0 4 3 1 1 (fun _ => (0, 0)) (fun _ => ⟨0, 0, 0⟩)
        (fun _ _ => ⟨0, 0, 0⟩) 6 2 ∧
    inRange01 (renderPixel [] cam0 4 3 1 1 (fun _ => (0, 0))
      (fun _ => ⟨0, 0, 0⟩) (fun _ _ => ⟨0, 0, 0⟩) 6 2) := by
  have h := render_tile_gamma [] cam0 4 3 (fun _ _ => fun _ => (0, 0))
    (fun _ _ => fun _ => ⟨0, 0, 0⟩) (fun _ _ => fun _ _ => ⟨0, 0, 0⟩) 6 2
    ⟨1, 1, 2, 2, 2⟩ (fun _ => ⟨0, 0, 0⟩) (by norm_num)
  exact ⟨h.1 0 (by decide), h.2.2 1 1⟩

/-- C8 counterexample: the Metal constructor applied to fuzz 2 stores fuzz 1,
which does not lie strictly below 1, so the stored fuzz is not in `[0,1)`. -/
theorem metal_fuzz_counterexample :
    ¬ (0 ≤ (mkMetal ⟨1, 1, 1⟩ 2).fuzzOf ∧ (mkMetal ⟨1, 1, 1⟩ 2).fuzzOf < 1) := by
  have h : (mkMetal ⟨1, 1, 1⟩ 2).fuzzOf = 1 := by
    simp only [mkMetal, Material.fuzzOf]
    norm_num
  rw [h]
  norm_num

/-- C8 amended: the stored fuzz is the argument when the argument is below 1
and exactly 1 otherwise; in particular it is at most 1, with no lower clamp. -/
theorem metal_fuzz_clamp :
    ∀ (albedo : Vec3) (fuzz : ℝ),
      (mkMetal albedo fuzz).fuzzOf ≤ 1 ∧
      (fuzz < 1 → (mkMetal albedo fuzz).fuzzOf = fuzz) ∧
      (1 ≤ fuzz → (mkMetal albedo fuzz).fuzzOf = 1) := by
  intro albedo fuzz
  by_cases h : fuzz < 1
  · have hf : (mkMetal albedo fuzz).fuzzOf = fuzz := by
      simp only [mkMetal, if_pos h, Material.fuzzOf]
    exact ⟨by rw [hf]; exact le_of_lt h, fun _ => hf, fun h1 => by linarith⟩
  · have hf : (mkMetal albedo fuzz).fuzzOf = 1 := by
      simp only [mkMetal, if_neg h, Material.fuzzOf]
    exact ⟨by rw [hf], fun h1 => absurd h1 h, fun _ => hf⟩

/-- C8 witness: at fuzz input 2 the stored fuzz is exactly 1. -/
theorem metal_fuzz_clamp_witness : (mkMetal ⟨1, 1, 1⟩ 2).fuzzOf = 1 :=
  (metal_fuzz_clamp ⟨1, 1, 1⟩ 2).2.2 (by norm_num)

end
